import Mathlib

/-!
Verification of the bias-words-embedding core (`ethically/we/core.py`).

Word vectors are embedded as functions `Fin n → ℝ` (exact real arithmetic in
place of floating point).  The geometry helpers (`normalize`,
`cosine_similarity`, `project_vector`, `reject_vector`,
`project_reject_vector`, `update_word_vector`) live in the repository's
`ethically/we/utils.py`, which is not part of the sources at hand; they are
modelled from the specification (section 4.1 and 6).  The gensim
`KeyedVectors` collaborator is external: its `cosine_similarities` is cosine
similarity, and `init_sims(replace=True)` renormalizes every stored vector to
unit length (specification sections 4.3 and 6).  Python exceptions are
embedded as `Except` values.
-/

namespace Ethically

abbrev Word := String

abbrev Vec (n : ℕ) := Fin n → ℝ

variable {n : ℕ}

/-- Dot product of two vectors. -/
def dot (u v : Vec n) : ℝ := ∑ i, u i * v i

/-- Euclidean norm (`np.linalg.norm`). -/
noncomputable def vnorm (v : Vec n) : ℝ := Real.sqrt (dot v v)

/-- Modelled from the spec: `utils.normalize(v)` returns `v / ‖v‖`
(section 4.1).  With exact reals, a zero norm yields the zero vector. -/
noncomputable def normalize (v : Vec n) : Vec n := (vnorm v)⁻¹ • v

/-- Modelled from the spec: `utils.cosine_similarity(a, b) = (a·b)/(‖a‖‖b‖)`
(section 4.1). -/
noncomputable def cosine_similarity (u v : Vec n) : ℝ :=
  dot u v / (vnorm u * vnorm v)

/-- Modelled from the spec: `utils.project_vector(v, d) = (v·d) d` for a unit
direction `d` (section 4.1). -/
noncomputable def project_vector (v d : Vec n) : Vec n := dot v d • d

/-- Modelled from the spec: `utils.reject_vector(v, d) = v − project_vector(v, d)`
(section 4.1). -/
noncomputable def reject_vector (v d : Vec n) : Vec n := v - project_vector v d

/-- Modelled from the spec: `utils.project_reject_vector` returns both the
projected and the rejected part (section 4.1). -/
noncomputable def project_reject_vector (v d : Vec n) : Vec n × Vec n :=
  (project_vector v d, reject_vector v d)

/-- Modelled from the spec: `utils.update_word_vector` replaces the stored
vector of one word (section 6: in-place per-word vector replacement). -/
def update_word_vector (model : Word → Vec n) (word : Word) (v : Vec n) :
    Word → Vec n :=
  fun w => if w = word then v else model w

/-- Modelled from the spec: gensim `init_sims(replace=True)` renormalizes every
stored vector to unit length (section 6: renormalize-all bulk operation). -/
noncomputable def init_sims (model : Word → Vec n) : Word → Vec n :=
  fun w => normalize (model w)

/-- Sum of a list of vectors (`np.sum(..., axis=0)`). -/
def vsum (l : List (Vec n)) : Vec n := l.sum

/-- Mean of a list of vectors (`np.mean(..., axis=0)`). -/
noncomputable def vmean (l : List (Vec n)) : Vec n :=
  ((l.length : ℝ))⁻¹ • vsum l

/-- Python exceptions raised in `core.py`, by raise site:
`directionNotIdentified` is the RuntimeError of `_is_direction_identified`;
`invalidMethod` and `equalEnds` the two ValueErrors of `_identify_direction`
and `debias`; `lowExplainedVariance` the RuntimeError of the pca branch;
`typeError` the TypeError from iterating `None`; `indexError` an out-of-range
list index. -/
inductive WEError
  | directionNotIdentified
  | invalidMethod
  | equalEnds
  | lowExplainedVariance
  | typeError
  | indexError
  deriving Repr, DecidableEq

/-- State of a `BiasWordsEmbedding` instance: the gensim model is embedded as
a total vector assignment plus the vocabulary enumeration order. -/
structure BiasWordsEmbedding (n : ℕ) where
  model : Word → Vec n
  vocab : List Word
  direction : Option (Vec n)
  positive_end : Option Word
  negative_end : Option Word

/-- `DIRECTION_METHODS` from `core.py`. -/
def DIRECTION_METHODS : List String := ["single", "sum", "pca"]

/-- `DEBIAS_METHODS` from `core.py`. -/
def DEBIAS_METHODS : List String := ["neutralize", "hard", "soft"]

/-- `FIRST_PC_THRESHOLD` from `core.py`. -/
noncomputable def FIRST_PC_THRESHOLD : ℝ := 0.5

/-- `MAX_NON_SPECIFIC_EXAMPLES` from `core.py`. -/
def MAX_NON_SPECIFIC_EXAMPLES : ℕ := 1000

/-- `_is_direction_identified`: raises when `direction` is `None`, otherwise
the identified direction is available. -/
def _is_direction_identified (e : BiasWordsEmbedding n) :
    Except WEError (Vec n) :=
  match e.direction with
  | none => .error .directionNotIdentified
  | some d => .ok d

/-- Abstract interface of the sklearn `PCA` collaborator used by
`_identify_subspace_by_pca`: first principal component and first explained
variance ratio of a row matrix. -/
structure PCAOracle (n : ℕ) where
  firstComponent : List (Vec n) → Vec n
  firstVariance : List (Vec n) → ℝ

/-- Row matrix built by `_identify_subspace_by_pca`: for each definitional
pair, the two normalized vectors centered on their average. -/
noncomputable def pcaMatrix (e : BiasWordsEmbedding n)
    (definitional : List (Word × Word)) : List (Vec n) :=
  definitional.foldr
    (fun p acc =>
      let vector1 := normalize (e.model p.1)
      let vector2 := normalize (e.model p.2)
      let center := (2 : ℝ)⁻¹ • (vector1 + vector2)
      (vector1 - center) :: (vector2 - center) :: acc)
    []

/-- Direction produced by the method branches of `_identify_direction`
(before sign calibration).  `single` uses the first definitional pair,
`sum` the two position groups, `pca` the first principal component guarded
by the explained-variance threshold. -/
noncomputable def rawDirection (o : PCAOracle n) (e : BiasWordsEmbedding n)
    (definitional : List (Word × Word)) (method : String) :
    Except WEError (Vec n) :=
  if method = "single" then
    match definitional with
    | [] => .error .indexError
    | p :: _ =>
        .ok (normalize (normalize (e.model p.1) - normalize (e.model p.2)))
  else if method = "sum" then
    match definitional with
    | [] => .error .indexError
    | _ =>
        let group1_sum_vector := vsum (definitional.map (fun p => e.model p.1))
        let group2_sum_vector := vsum (definitional.map (fun p => e.model p.2))
        let diff_vector :=
          normalize group1_sum_vector - normalize group2_sum_vector
        .ok (normalize diff_vector)
  else
    let matrix := pcaMatrix e definitional
    if o.firstVariance matrix < FIRST_PC_THRESHOLD then
      .error .lowExplainedVariance
    else
      .ok (o.firstComponent matrix)

open Classical in
/-- `_identify_direction`: validates the method and the two ends, computes the
raw direction, flips its sign when the projection of
`model[positive_end] − model[negative_end]` on it is negative, and stores
direction and end labels. -/
noncomputable def _identify_direction (o : PCAOracle n)
    (e : BiasWordsEmbedding n) (positive_end negative_end : Word)
    (definitional : List (Word × Word)) (method : String) :
    Except WEError (BiasWordsEmbedding n) :=
  if method ∉ DIRECTION_METHODS then .error .invalidMethod
  else if positive_end = negative_end then .error .equalEnds
  else
    match rawDirection o e definitional method with
    | .error err => .error err
    | .ok dir0 =>
        let ends_diff_projection :=
          cosine_similarity (e.model positive_end - e.model negative_end) dir0
        let direction := if ends_diff_projection < 0 then -dir0 else dir0
        .ok { e with
                direction := some direction
                positive_end := some positive_end
                negative_end := some negative_end }

/-- `project_on_direction`: cosine similarity of the word's stored vector with
the identified direction (gensim `cosine_similarities`). -/
noncomputable def project_on_direction (e : BiasWordsEmbedding n)
    (word : Word) : Except WEError ℝ := do
  let d ← _is_direction_identified e
  .ok (cosine_similarity d (e.model word))

open Classical in
/-- `_calc_projection_scores`: the (word, projection) table sorted by
projection in descending order. -/
noncomputable def _calc_projection_scores (e : BiasWordsEmbedding n)
    (words : List Word) : Except WEError (List (Word × ℝ)) := do
  let d ← _is_direction_identified e
  let pairs := words.map (fun w => (w, cosine_similarity d (e.model w)))
  .ok (pairs.mergeSort (fun a b => decide (b.2 ≤ a.2)))

/-- `calc_direct_bias`: mean of `|projection|^c` over the neutral words, with
`c` defaulting to 1. -/
noncomputable def calc_direct_bias (e : BiasWordsEmbedding n)
    (neutral_words : List Word) (c : Option ℝ) : Except WEError ℝ := do
  let c := c.getD 1
  let scores ← _calc_projection_scores e neutral_words
  let direct_bias_terms := scores.map (fun p => |p.2| ^ c)
  .ok (direct_bias_terms.sum / (neutral_words.length : ℝ))

/-- `calc_indirect_bias`: share of the raw similarity of the two normalized
vectors attributable to the direction. -/
noncomputable def calc_indirect_bias (e : BiasWordsEmbedding n)
    (word1 word2 : Word) : Except WEError ℝ := do
  let d ← _is_direction_identified e
  let vector1 := normalize (e.model word1)
  let vector2 := normalize (e.model word2)
  let perpendicular_vector1 := reject_vector vector1 d
  let perpendicular_vector2 := reject_vector vector2 d
  let inner_product := dot vector1 vector2
  let perpendicular_similarity :=
    cosine_similarity perpendicular_vector1 perpendicular_vector2
  .ok ((inner_product - perpendicular_similarity) / inner_product)

/-- `_extract_neutral_words`: vocabulary words outside the case-variant
closure of the specific words.  The Python string methods `lower`, `upper`
and `title` are external builtins, taken as parameters. -/
def _extract_neutral_words (lower upper title : Word → Word)
    (e : BiasWordsEmbedding n) (specific_words : List Word) : List Word :=
  let extended_specific_words :=
    specific_words.foldr
      (fun word acc => word :: lower word :: upper word :: title word :: acc)
      []
  e.vocab.filter (fun word => word ∉ extended_specific_words)

/-- `_neutralize`: requires an identified direction, then replaces each
neutral word's vector by its rejection from the direction, and finally
renormalizes every stored vector (`init_sims`).  A `None` word list raises
TypeError when iterated, after the direction check. -/
noncomputable def _neutralize (e : BiasWordsEmbedding n)
    (neutral_words : Option (List Word)) :
    Except WEError (BiasWordsEmbedding n) := do
  let d ← _is_direction_identified e
  match neutral_words with
  | none => .error .typeError
  | some ws =>
      let m := ws.foldl
        (fun m word =>
          update_word_vector m word (reject_vector (m word) d)) e.model
      .ok { e with model := init_sims m }

/-- Radicand of the scaling factor in `_equalize`, exactly as computed by the
code: `1 - np.linalg.norm(rejected_center)**2`, with no clamping. -/
noncomputable def equalize_radicand (rejected_center : Vec n) : ℝ :=
  1 - vnorm rejected_center ^ 2

/-- Radicand as the specification words it: `max(0, 1 − ‖rejected_center‖²)`,
clamped at zero. -/
noncomputable def equalize_radicand_spec (rejected_center : Vec n) : ℝ :=
  max 0 (1 - vnorm rejected_center ^ 2)

/-- Inner loop of `_equalize` over one equality set: normalize the members,
split their centroid along the direction, and move every member to
`rejected_center + scaling • normalize(projected_vector − projected_center)`. -/
noncomputable def equalizeSet (d : Vec n) (m : Word → Vec n)
    (equality_set_words : List Word) : Word → Vec n :=
  let equality_set_vectors := equality_set_words.map (fun w => normalize (m w))
  let center := vmean equality_set_vectors
  let pr := project_reject_vector center d
  (equality_set_words.zip equality_set_vectors).foldl
    (fun m' p =>
      let projected_vector := project_vector p.2 d
      let projected_part := normalize (projected_vector - pr.1)
      let scaling := Real.sqrt (equalize_radicand pr.2)
      update_word_vector m' p.1 (pr.2 + scaling • projected_part)) m

/-- `_equalize`: applies `equalizeSet` to every equality set in order, then
renormalizes every stored vector (`init_sims`).  With no identified direction
the numpy arithmetic on `None` raises TypeError. -/
noncomputable def _equalize (e : BiasWordsEmbedding n)
    (equality_sets : List (List Word)) :
    Except WEError (BiasWordsEmbedding n) :=
  match e.direction with
  | none => .error .typeError
  | some d =>
      .ok { e with model := init_sims (equality_sets.foldl (equalizeSet d) e.model) }

/-- `debias`: picks the target object (`self` when `inplace`, a deep copy
otherwise — value semantics, since `__deepcopy__` copies the model and
`__copy__` deep-copies direction and end labels), validates the method, runs
neutralize for `hard`/`neutralize` and equalize for `hard`.  The result pairs
the Python return value (`None` when inplace, the copy otherwise) with the
post-call state of the original object. -/
noncomputable def debias (e : BiasWordsEmbedding n) (method : String)
    (neutral_words : Option (List Word)) (equality_sets : List (List Word))
    (inplace : Bool) :
    Except WEError (Option (BiasWordsEmbedding n) × BiasWordsEmbedding n) := do
  let bias_words_embedding := e
  if method ∉ DEBIAS_METHODS then .error .invalidMethod
  else
    let bias_words_embedding ←
      if method = "hard" ∨ method = "neutralize" then
        _neutralize bias_words_embedding neutral_words
      else .ok bias_words_embedding
    let bias_words_embedding ←
      if method = "hard" then _equalize bias_words_embedding equality_sets
      else .ok bias_words_embedding
    if inplace then .ok (none, bias_words_embedding)
    else .ok (some bias_words_embedding, e)

/-- Labeled-dataset loop of `learn_full_specific_words` (lines 479–490), with
the running count of non-specific words seen so far. -/
def trainingLoop (model : Word → Vec n) (seed_specific_words : List Word)
    (max_non_specific_examples : ℕ) :
    List Word → ℕ → List (Vec n × Bool)
  | [], _ => []
  | word :: rest, non_specific_example_count =>
      if word ∈ seed_specific_words then
        (model word, true) ::
          trainingLoop model seed_specific_words max_non_specific_examples
            rest non_specific_example_count
      else if non_specific_example_count + 1 ≤ max_non_specific_examples then
        (model word, false) ::
          trainingLoop model seed_specific_words max_non_specific_examples
            rest (non_specific_example_count + 1)
      else
        trainingLoop model seed_specific_words max_non_specific_examples
          rest (non_specific_example_count + 1)

/-- Labeled dataset built by `learn_full_specific_words` before the seeded
shuffle and the SVM fit (both external collaborators). -/
def trainingData (e : BiasWordsEmbedding n) (seed_specific_words : List Word)
    (max_non_specific_examples : ℕ) : List (Vec n × Bool) :=
  trainingLoop e.model seed_specific_words max_non_specific_examples e.vocab 0

/-- Vector that `_equalize` assigns to one member of an equality set with
centroid `center`: the rejected centroid plus the scaled normalized
projection delta. -/
noncomputable def equalizedVector (d center v : Vec n) : Vec n :=
  reject_vector center d +
    Real.sqrt (equalize_radicand (reject_vector center d)) •
      normalize (project_vector v d - project_vector center d)

def wordA : Word := "a"

def wordB : Word := "b"

def wordX : Word := "x"

def wordU : Word := "u"

def wordV : Word := "v"

def methodSoft : String := "soft"

def methodSingle : String := "single"

def methodNeutralize : String := "neutralize"

def exStoreNoDir : BiasWordsEmbedding 1 :=
  { model := fun _ => ![0], vocab := [wordA], direction := none,
    positive_end := none, negative_end := none }

def exStoreSoft : BiasWordsEmbedding 1 :=
  { model := fun _ => ![1], vocab := [wordA], direction := none,
    positive_end := none, negative_end := none }

noncomputable def exDir : Vec 2 := ![1, 0]

noncomputable def exDirN : Vec 2 := ![1, 0]

noncomputable def exStoreNeu : BiasWordsEmbedding 2 :=
  { model := fun _ => ![0, 1], vocab := [wordX], direction := some exDirN,
    positive_end := none, negative_end := none }

noncomputable def exStoreNeuAfter : BiasWordsEmbedding 2 :=
  { exStoreNeu with
      model := init_sims (update_word_vector exStoreNeu.model wordX
        (reject_vector (exStoreNeu.model wordX) exDirN)) }

noncomputable def exStoreId : BiasWordsEmbedding 1 :=
  { model := fun w => if w = wordA then ![1] else ![-1],
    vocab := [wordA, wordB], direction := none,
    positive_end := none, negative_end := none }

def exOracle : PCAOracle 1 :=
  { firstComponent := fun _ => ![1], firstVariance := fun _ => 1 }

noncomputable def exDir0 : Vec 1 :=
  normalize (normalize (exStoreId.model wordA)
    - normalize (exStoreId.model wordB))

noncomputable def exStoreIdAfter : BiasWordsEmbedding 1 :=
  { exStoreId with
      direction := some exDir0
      positive_end := some wordA
      negative_end := some wordB }

noncomputable def exStoreDirOne : BiasWordsEmbedding 1 :=
  { model := fun _ => ![1], vocab := [wordA], direction := some ![1],
    positive_end := none, negative_end := none }

noncomputable def exStoreEq : BiasWordsEmbedding 2 :=
  { model := fun w => if w = wordU then ![1, 0] else ![0, 1],
    vocab := [wordU, wordV], direction := some exDirN,
    positive_end := none, negative_end := none }

noncomputable def exStoreEqAfter : BiasWordsEmbedding 2 :=
  { exStoreEq with
      model := init_sims (equalizeSet exDirN exStoreEq.model [wordU, wordV]) }

section DotLemmas

theorem dot_comm (u v : Vec n) : dot u v = dot v u := by
  unfold dot; exact Finset.sum_congr rfl (fun i _ => mul_comm _ _)

theorem dot_add_left (u v w : Vec n) :
    dot (u + v) w = dot u w + dot v w := by
  unfold dot
  rw [← Finset.sum_add_distrib]
  exact Finset.sum_congr rfl (fun i _ => by simp [add_mul])

theorem dot_add_right (u v w : Vec n) :
    dot u (v + w) = dot u v + dot u w := by
  rw [dot_comm, dot_add_left, dot_comm v u, dot_comm w u]

theorem dot_smul_left (a : ℝ) (u v : Vec n) :
    dot (a • u) v = a * dot u v := by
  unfold dot
  rw [Finset.mul_sum]
  exact Finset.sum_congr rfl (fun i _ => by simp [mul_assoc])

theorem dot_smul_right (a : ℝ) (u v : Vec n) :
    dot u (a • v) = a * dot u v := by
  rw [dot_comm, dot_smul_left, dot_comm v u]

theorem dot_neg_left (u v : Vec n) : dot (-u) v = -dot u v := by
  have h : (-u : Vec n) = (-1 : ℝ) • u := by
    funext i; simp
  rw [h, dot_smul_left]; ring

theorem dot_neg_right (u v : Vec n) : dot u (-v) = -dot u v := by
  rw [dot_comm, dot_neg_left, dot_comm v u]

theorem dot_sub_left (u v w : Vec n) :
    dot (u - v) w = dot u w - dot v w := by
  have h : (u - v : Vec n) = u + -v := by funext i; simp [sub_eq_add_neg]
  rw [h, dot_add_left, dot_neg_left]; ring

theorem dot_sub_right (u v w : Vec n) :
    dot u (v - w) = dot u v - dot u w := by
  rw [dot_comm, dot_sub_left, dot_comm v u, dot_comm w u]

theorem dot_zero_left (v : Vec n) : dot 0 v = 0 := by
  unfold dot; simp

theorem dot_self_nonneg (v : Vec n) : 0 ≤ dot v v :=
  Finset.sum_nonneg (fun i _ => mul_self_nonneg _)

theorem vnorm_nonneg (v : Vec n) : 0 ≤ vnorm v := Real.sqrt_nonneg _

theorem vnorm_sq (v : Vec n) : vnorm v ^ 2 = dot v v :=
  Real.sq_sqrt (dot_self_nonneg v)

theorem vnorm_zero : vnorm (0 : Vec n) = 0 := by
  unfold vnorm; rw [dot_zero_left, Real.sqrt_zero]

theorem vnorm_smul (a : ℝ) (v : Vec n) :
    vnorm (a • v) = |a| * vnorm v := by
  unfold vnorm
  rw [dot_smul_left, dot_smul_right, ← mul_assoc, ← sq,
    Real.sqrt_mul (sq_nonneg a), Real.sqrt_sq_eq_abs]

theorem vnorm_neg (v : Vec n) : vnorm (-v) = vnorm v := by
  unfold vnorm; rw [dot_neg_left, dot_neg_right, neg_neg]

theorem dot_eq_one_of_vnorm_one {v : Vec n} (h : vnorm v = 1) :
    dot v v = 1 := by
  have := vnorm_sq v
  rw [h] at this; simpa using this.symm

theorem normalize_of_vnorm_one {v : Vec n} (h : vnorm v = 1) :
    normalize v = v := by
  unfold normalize; rw [h]; simp

/-- Cauchy–Schwarz for `dot`. -/
theorem dot_le_vnorm_mul_vnorm (u v : Vec n) :
    dot u v ≤ vnorm u * vnorm v := by
  have h2 : dot u v ^ 2 ≤ dot u u * dot v v := by
    have := Finset.sum_mul_sq_le_sq_mul_sq Finset.univ u v
    unfold dot
    calc (∑ i, u i * v i) ^ 2 ≤ (∑ i, u i ^ 2) * ∑ i, v i ^ 2 := this
    _ = (∑ i, u i * u i) * ∑ i, v i * v i := by simp [sq]
  calc dot u v ≤ |dot u v| := le_abs_self _
  _ = Real.sqrt (dot u v ^ 2) := (Real.sqrt_sq_eq_abs _).symm
  _ ≤ Real.sqrt (dot u u * dot v v) := Real.sqrt_le_sqrt h2
  _ = vnorm u * vnorm v := Real.sqrt_mul (dot_self_nonneg u) _

/-- Triangle inequality for `vnorm`. -/
theorem vnorm_add_le (u v : Vec n) :
    vnorm (u + v) ≤ vnorm u + vnorm v := by
  have hexp : dot (u + v) (u + v) = dot u u + 2 * dot u v + dot v v := by
    rw [dot_add_left, dot_add_right, dot_add_right, dot_comm v u]; ring
  have hb : dot (u + v) (u + v) ≤ (vnorm u + vnorm v) ^ 2 := by
    rw [hexp]
    have h1 := dot_le_vnorm_mul_vnorm u v
    have h2 := vnorm_sq u
    have h3 := vnorm_sq v
    nlinarith
  calc vnorm (u + v) = Real.sqrt (dot (u + v) (u + v)) := rfl
  _ ≤ Real.sqrt ((vnorm u + vnorm v) ^ 2) := Real.sqrt_le_sqrt hb
  _ = vnorm u + vnorm v := by
        apply Real.sqrt_sq
        have h1 := vnorm_nonneg u
        have h2 := vnorm_nonneg v
        linarith

theorem vnorm_vsum_le (l : List (Vec n)) :
    vnorm (vsum l) ≤ (l.map vnorm).sum := by
  induction l with
  | nil => simp [vsum, vnorm_zero]
  | cons a tl ih =>
      have : vsum (a :: tl) = a + vsum tl := by simp [vsum]
      rw [this, List.map_cons, List.sum_cons]
      calc vnorm (a + vsum tl) ≤ vnorm a + vnorm (vsum tl) := vnorm_add_le _ _
      _ ≤ vnorm a + (tl.map vnorm).sum := by
            exact add_le_add_left ih _

/-- The mean of unit vectors has norm at most one (also for the empty list,
where it is zero). -/
theorem vnorm_vmean_le_one (l : List (Vec n))
    (h : ∀ v ∈ l, vnorm v = 1) : vnorm (vmean l) ≤ 1 := by
  unfold vmean
  rw [vnorm_smul]
  have hsum : vnorm (vsum l) ≤ (l.length : ℝ) := by
    calc vnorm (vsum l) ≤ (l.map vnorm).sum := vnorm_vsum_le l
    _ = (l.length : ℝ) := by
          have hone : (l.map vnorm).sum = (l.map vnorm).length • (1 : ℝ) := by
            apply List.sum_eq_card_nsmul
            intro x hx
            rcases List.mem_map.1 hx with ⟨v, hv, rfl⟩
            exact h v hv
          rw [hone]
          simp
  rcases Nat.eq_zero_or_pos l.length with hz | hp
  · rw [hz]; simp
  · have hpos : (0 : ℝ) < (l.length : ℝ) := by exact_mod_cast hp
    rw [abs_of_nonneg (by positivity)]
    calc ((l.length : ℝ))⁻¹ * vnorm (vsum l)
        ≤ ((l.length : ℝ))⁻¹ * (l.length : ℝ) :=
          mul_le_mul_of_nonneg_left hsum (by positivity)
    _ = 1 := inv_mul_cancel₀ (ne_of_gt hpos)

theorem dot_reject_right {d : Vec n} (hd : dot d d = 1) (u : Vec n) :
    dot d (reject_vector u d) = 0 := by
  unfold reject_vector project_vector
  rw [dot_sub_right, dot_smul_right, hd, dot_comm d u]
  ring

theorem dot_reject_left {d : Vec n} (hd : dot d d = 1) (u : Vec n) :
    dot (reject_vector u d) d = 0 := by
  rw [dot_comm]; exact dot_reject_right hd u

/-- Pythagoras: the rejection never has larger norm than the vector,
for a unit direction. -/
theorem vnorm_reject_le {d : Vec n} (hd : dot d d = 1) (u : Vec n) :
    vnorm (reject_vector u d) ≤ vnorm u := by
  have hexp : dot (reject_vector u d) (reject_vector u d)
      = dot u u - dot u d ^ 2 := by
    unfold reject_vector project_vector
    rw [dot_sub_left, dot_sub_right, dot_sub_right, dot_smul_left,
      dot_smul_right, dot_smul_left, dot_smul_right, hd, dot_comm d u]
    ring
  unfold vnorm
  apply Real.sqrt_le_sqrt
  rw [hexp]
  nlinarith [sq_nonneg (dot u d)]

end DotLemmas

section Claims

/-- C8: for every method and definitional input, `_identify_direction` with
`positive_end = negative_end` always fails with an error raised before any
direction computation (the method ValueError for an unknown method name, the
equal-ends ValueError otherwise); the error return carries no mutated
direction or end labels. -/
theorem identify_equal_ends_fails (o : PCAOracle n) (e : BiasWordsEmbedding n)
    (pos : Word) (definitional : List (Word × Word)) (method : String) :
    _identify_direction o e pos pos definitional method =
      .error (if method ∈ DIRECTION_METHODS then WEError.equalEnds
              else WEError.invalidMethod) := by
  unfold _identify_direction
  by_cases hm : method ∈ DIRECTION_METHODS
  · rw [if_neg (not_not.2 hm), if_pos rfl, if_pos hm]
  · rw [if_pos hm, if_neg hm]

/-- C7: with no identified direction, `project_on_direction`,
`calc_direct_bias`, `calc_indirect_bias` and `_neutralize` all fail fast with
the distinct direction-not-identified error, computing no projection and
mutating no vector. -/
theorem direction_not_identified_guard (e : BiasWordsEmbedding n)
    (h : e.direction = none) (w w1 w2 : Word) (ws : List Word) (c : Option ℝ)
    (nw : Option (List Word)) :
    project_on_direction e w = .error .directionNotIdentified ∧
    calc_direct_bias e ws c = .error .directionNotIdentified ∧
    calc_indirect_bias e w1 w2 = .error .directionNotIdentified ∧
    _neutralize e nw = .error .directionNotIdentified := by
  refine ⟨?_, ?_, ?_, ?_⟩ <;>
  · simp only [project_on_direction, calc_direct_bias,
      _calc_projection_scores, calc_indirect_bias, _neutralize,
      _is_direction_identified, h]
    rfl

/-- Witness for C7 at a concrete store with no identified direction. -/
theorem direction_not_identified_guard_witness :
    exStoreNoDir.direction = none ∧
    (project_on_direction exStoreNoDir wordA =
        .error .directionNotIdentified ∧
      calc_direct_bias exStoreNoDir [wordA] none =
        .error .directionNotIdentified ∧
      calc_indirect_bias exStoreNoDir wordA wordA =
        .error .directionNotIdentified ∧
      _neutralize exStoreNoDir none = .error .directionNotIdentified) :=
  ⟨rfl, direction_not_identified_guard exStoreNoDir rfl wordA wordA wordA
    [wordA] none none⟩

/-- Positive and negative rows of the training loop, for any starting count:
the positives are all seed words, the negatives the first
`max_non_specific_examples − k` remaining non-seed words. -/
theorem trainingLoop_filter (model : Word → Vec n)
    (seed_specific_words : List Word) (maxNon : ℕ) (ws : List Word) (k : ℕ) :
    (trainingLoop model seed_specific_words maxNon ws k).filter
        (fun p => p.2) =
      (ws.filter (fun w => decide (w ∈ seed_specific_words))).map
        (fun w => (model w, true)) ∧
    (trainingLoop model seed_specific_words maxNon ws k).filter
        (fun p => !p.2) =
      ((ws.filter (fun w => decide (w ∉ seed_specific_words))).take
          (maxNon - k)).map
        (fun w => (model w, false)) := by
  induction ws generalizing k with
  | nil => simp [trainingLoop]
  | cons a tl ih =>
      by_cases ha : a ∈ seed_specific_words
      · have hloop : trainingLoop model seed_specific_words maxNon (a :: tl) k
            = (model a, true) ::
              trainingLoop model seed_specific_words maxNon tl k := by
          simp [trainingLoop, ha]
        constructor
        · rw [hloop, List.filter_cons, (ih k).1]
          simp [ha]
        · rw [hloop, List.filter_cons, (ih k).2]
          simp [ha]
      · by_cases hk : k + 1 ≤ maxNon
        · have hloop : trainingLoop model seed_specific_words maxNon
              (a :: tl) k
              = (model a, false) ::
                trainingLoop model seed_specific_words maxNon tl (k + 1) := by
            simp [trainingLoop, ha, hk]
          have hsub : maxNon - k = (maxNon - (k + 1)) + 1 := by omega
          constructor
          · rw [hloop, List.filter_cons, (ih (k + 1)).1]
            simp [ha]
          · rw [hloop, hsub]
            rw [List.filter_cons, (ih (k + 1)).2]
            simp [ha, List.filter_cons]
        · have hloop : trainingLoop model seed_specific_words maxNon
              (a :: tl) k
              = trainingLoop model seed_specific_words maxNon tl (k + 1) := by
            simp [trainingLoop, ha, hk]
          have hz1 : maxNon - k = 0 := by omega
          have hz2 : maxNon - (k + 1) = 0 := by omega
          constructor
          · rw [hloop, (ih (k + 1)).1]
            simp [ha]
          · rw [hloop, (ih (k + 1)).2, hz1, hz2]
            simp

/-- C9: the labeled dataset built by `learn_full_specific_words` holds
exactly every seed-specific word with label `true` plus the first
`max_non_specific_examples` non-seed vocabulary words, in vocabulary
enumeration order, with label `false`. -/
theorem training_data_exact (e : BiasWordsEmbedding n)
    (seed_specific_words : List Word) (max_non_specific_examples : ℕ) :
    (trainingData e seed_specific_words max_non_specific_examples).filter
        (fun p => p.2) =
      (e.vocab.filter (fun w => decide (w ∈ seed_specific_words))).map
        (fun w => (e.model w, true)) ∧
    (trainingData e seed_specific_words max_non_specific_examples).filter
        (fun p => !p.2) =
      ((e.vocab.filter (fun w => decide (w ∉ seed_specific_words))).take
          max_non_specific_examples).map
        (fun w => (e.model w, false)) := by
  have h := trainingLoop_filter e.model seed_specific_words
    max_non_specific_examples e.vocab 0
  rw [Nat.sub_zero] at h
  exact h

theorem except_bind_ok_iff {ε α β : Type _} {x : Except ε α}
    {f : α → Except ε β} {b : β} :
    (x >>= f) = .ok b ↔ ∃ a, x = .ok a ∧ f a = .ok b := by
  cases x <;> simp [Bind.bind, Except.bind]

/-- Shape of every successful `debias` call: the returned value is `None`
paired with the mutated state when inplace, and the mutated copy paired with
the unchanged original otherwise. -/
theorem debias_tail_shape {t e : BiasWordsEmbedding n} {ip : Bool}
    {p : Option (BiasWordsEmbedding n) × BiasWordsEmbedding n}
    (h : (if ip = true then (Except.ok (none, t) : Except WEError _)
          else Except.ok (some t, e)) = .ok p) :
    (ip = true → p = (none, t)) ∧ (ip = false → p = (some t, e)) := by
  cases ip <;> simp_all

theorem debias_ok_shape (e : BiasWordsEmbedding n) (method : String)
    (nw : Option (List Word)) (es : List (List Word)) (ip : Bool)
    (p : Option (BiasWordsEmbedding n) × BiasWordsEmbedding n)
    (h : debias e method nw es ip = .ok p) :
    ∃ t, (ip = true → p = (none, t)) ∧ (ip = false → p = (some t, e)) := by
  simp only [debias] at h
  split at h
  · exact absurd h (by simp)
  · split at h
    all_goals
      rw [except_bind_ok_iff] at h
      obtain ⟨t1, _, h⟩ := h
      split at h
      all_goals
        rw [except_bind_ok_iff] at h
        obtain ⟨t2, _, h⟩ := h
        exact ⟨t2, debias_tail_shape h⟩

/-- C5: `debias` with `inplace = false` leaves the original object's vector
store, direction and end labels exactly as they were before the call; only
the returned copy carries the debiased state. -/
theorem debias_not_inplace_preserves_original (e : BiasWordsEmbedding n)
    (method : String) (nw : Option (List Word)) (es : List (List Word))
    (p : Option (BiasWordsEmbedding n) × BiasWordsEmbedding n)
    (h : debias e method nw es false = .ok p) :
    p.2.model = e.model ∧ p.2.direction = e.direction ∧
    p.2.positive_end = e.positive_end ∧ p.2.negative_end = e.negative_end := by
  obtain ⟨t, _, h2⟩ := debias_ok_shape e method nw es false p h
  rw [h2 rfl]
  exact ⟨rfl, rfl, rfl, rfl⟩

/-- C10: `debias` returns `None` when inplace, and when not inplace it
returns the debiased copy, never the original object (whose state is the
unchanged second component). -/
theorem debias_return_value (e : BiasWordsEmbedding n) (method : String)
    (nw : Option (List Word)) (es : List (List Word)) (ip : Bool)
    (p : Option (BiasWordsEmbedding n) × BiasWordsEmbedding n)
    (h : debias e method nw es ip = .ok p) :
    (ip = true → p.1 = none) ∧
    (ip = false → ∃ t, p.1 = some t ∧ p.2 = e) := by
  obtain ⟨t, h1, h2⟩ := debias_ok_shape e method nw es ip p h
  constructor
  · intro hip; rw [h1 hip]
  · intro hip; exact ⟨t, by rw [h2 hip], by rw [h2 hip]⟩

/-- Witness for C5 at a concrete store and the `soft` method. -/
theorem debias_not_inplace_preserves_original_witness :
    debias exStoreSoft methodSoft none [] false =
        .ok (some exStoreSoft, exStoreSoft) ∧
    ((some exStoreSoft, exStoreSoft).2.model = exStoreSoft.model ∧
      (some exStoreSoft, exStoreSoft).2.direction = exStoreSoft.direction ∧
      (some exStoreSoft, exStoreSoft).2.positive_end =
        exStoreSoft.positive_end ∧
      (some exStoreSoft, exStoreSoft).2.negative_end =
        exStoreSoft.negative_end) :=
  ⟨rfl, debias_not_inplace_preserves_original exStoreSoft methodSoft none []
      (some exStoreSoft, exStoreSoft) rfl⟩

/-- Witness for C10 at a concrete store and the `soft` method. -/
theorem debias_return_value_witness :
    debias exStoreSoft methodSoft none [] false =
        .ok (some exStoreSoft, exStoreSoft) ∧
    ((false = true → (some exStoreSoft, exStoreSoft).1 = none) ∧
      (false = false → ∃ t, (some exStoreSoft, exStoreSoft).1 = some t ∧
        (some exStoreSoft, exStoreSoft).2 = exStoreSoft)) :=
  ⟨rfl, debias_return_value exStoreSoft methodSoft none [] false
      (some exStoreSoft, exStoreSoft) rfl⟩

/-- C4 counterexample: the radicand computed by `_equalize` is
`1 − ‖rejected_center‖²` with no clamping at 0, so on a rejected center of
norm 2 it is −3 and differs from the clamped radicand of the claim, which
is 0 there. -/
theorem equalize_radicand_not_clamped :
    equalize_radicand ![(0 : ℝ), 2] ≠ equalize_radicand_spec ![(0 : ℝ), 2] := by
  have hd : dot ![(0 : ℝ), 2] ![(0 : ℝ), 2] = 4 := by
    simp [dot, Fin.sum_univ_two]
    norm_num
  have hv : vnorm ![(0 : ℝ), 2] = 2 := by
    unfold vnorm
    rw [hd, show (4 : ℝ) = 2 ^ 2 by norm_num, Real.sqrt_sq (by norm_num)]
  unfold equalize_radicand equalize_radicand_spec
  rw [hv]
  norm_num

/-- C4 (amended): `_equalize` computes the scaling radicand without any
clamp, but at every rejected centroid it actually forms — the rejection of a
mean of normalized (unit) vectors from a unit direction — the radicand is
nonnegative in exact arithmetic and hence agrees with the clamped radicand
of the specification, so the square root is real. -/
theorem equalize_radicand_nonneg (d : Vec n) (l : List (Vec n))
    (hd : dot d d = 1) (hl : ∀ v ∈ l, vnorm v = 1) :
    0 ≤ equalize_radicand (reject_vector (vmean l) d) ∧
    equalize_radicand (reject_vector (vmean l) d) =
      equalize_radicand_spec (reject_vector (vmean l) d) := by
  have h1 : vnorm (reject_vector (vmean l) d) ≤ vnorm (vmean l) :=
    vnorm_reject_le hd _
  have h2 : vnorm (vmean l) ≤ 1 := vnorm_vmean_le_one l hl
  have h3 : vnorm (reject_vector (vmean l) d) ≤ 1 := le_trans h1 h2
  have h0 : 0 ≤ vnorm (reject_vector (vmean l) d) := vnorm_nonneg _
  have hr : 0 ≤ equalize_radicand (reject_vector (vmean l) d) := by
    unfold equalize_radicand
    nlinarith
  refine ⟨hr, ?_⟩
  unfold equalize_radicand_spec
  unfold equalize_radicand at hr ⊢
  exact (max_eq_right hr).symm

/-- Witness for the amended C4 at a concrete unit direction and a singleton
list of unit vectors. -/
theorem equalize_radicand_nonneg_witness :
    (dot exDir exDir = 1 ∧ ∀ v ∈ [exDir], vnorm v = 1) ∧
    (0 ≤ equalize_radicand (reject_vector (vmean [exDir]) exDir) ∧
      equalize_radicand (reject_vector (vmean [exDir]) exDir) =
        equalize_radicand_spec (reject_vector (vmean [exDir]) exDir)) := by
  have hdot : dot exDir exDir = 1 := by
    simp [dot, exDir, Fin.sum_univ_two]
  have hunits : ∀ v ∈ [exDir], vnorm v = 1 := by
    intro v hv
    rw [List.mem_singleton] at hv
    subst hv
    unfold vnorm
    rw [hdot, Real.sqrt_one]
  exact ⟨⟨hdot, hunits⟩, equalize_radicand_nonneg exDir [exDir] hdot hunits⟩

theorem neutralize_fold_notmem (d : Vec n) (ws : List Word)
    (m : Word → Vec n) (w : Word) (hw : w ∉ ws) :
    (ws.foldl
      (fun m' word => update_word_vector m' word (reject_vector (m' word) d))
      m) w = m w := by
  induction ws generalizing m with
  | nil => rfl
  | cons a tl ih =>
      rw [List.foldl_cons]
      have hwa : w ≠ a := fun h => hw (h ▸ List.mem_cons_self a tl)
      rw [ih _ (fun h => hw (List.mem_cons_of_mem a h))]
      simp [update_word_vector, hwa]

theorem neutralize_fold_mem (d : Vec n) (ws : List Word)
    (m : Word → Vec n) (w : Word) (hw : w ∈ ws) :
    ∃ u, (ws.foldl
      (fun m' word => update_word_vector m' word (reject_vector (m' word) d))
      m) w = reject_vector u d := by
  induction ws generalizing m with
  | nil => cases hw
  | cons a tl ih =>
      rw [List.foldl_cons]
      by_cases htl : w ∈ tl
      · exact ih _ htl
      · have hwa : w = a := by
          rcases List.mem_cons.1 hw with h | h
          · exact h
          · exact absurd h htl
        subst hwa
        refine ⟨m w, ?_⟩
        rw [neutralize_fold_notmem d tl _ w htl]
        simp [update_word_vector]

/-- The cosine of a unit direction with a vector proportional to a rejection
from it is zero. -/
theorem cosine_direction_reject {d : Vec n} (hdd : dot d d = 1) (u : Vec n) :
    cosine_similarity d (normalize (reject_vector u d)) = 0 := by
  unfold cosine_similarity normalize
  rw [dot_smul_right, dot_reject_right hdd, mul_zero, zero_div]

/-- C2: after `_neutralize` runs on a word list (rejection of the direction
followed by renormalization of every stored vector), the projection of any
neutralized word on the identified unit direction is exactly zero. -/
theorem neutralize_projection_eq_zero (e : BiasWordsEmbedding n) (d : Vec n)
    (ws : List Word) (w : Word) (eN : BiasWordsEmbedding n)
    (hd : e.direction = some d) (hunit : vnorm d = 1) (hw : w ∈ ws)
    (hnz : reject_vector (e.model w) d ≠ 0)
    (hok : _neutralize e (some ws) = .ok eN) :
    project_on_direction eN w = .ok 0 := by
  have hdd : dot d d = 1 := dot_eq_one_of_vnorm_one hunit
  unfold _neutralize _is_direction_identified at hok
  rw [hd] at hok
  simp only [Except.bind] at hok
  have heq : eN = { e with model := init_sims (ws.foldl
      (fun m word => update_word_vector m word (reject_vector (m word) d))
      e.model) } := by
    cases hok
    rw [hd]
  subst heq
  unfold project_on_direction _is_direction_identified
  rw [hd]
  simp only [Except.bind]
  obtain ⟨u, hu⟩ := neutralize_fold_mem d ws e.model w hw
  show Except.ok (cosine_similarity d (init_sims _ w)) = Except.ok 0
  unfold init_sims
  rw [hu, cosine_direction_reject hdd]

/-- Witness for C2 at a concrete two-dimensional store. -/
theorem neutralize_projection_eq_zero_witness :
    (exStoreNeu.direction = some exDirN ∧ vnorm exDirN = 1 ∧
      wordX ∈ [wordX] ∧
      reject_vector (exStoreNeu.model wordX) exDirN ≠ 0 ∧
      _neutralize exStoreNeu (some [wordX]) = .ok exStoreNeuAfter) ∧
    project_on_direction exStoreNeuAfter wordX = .ok 0 := by
  have hdotD : dot exDirN exDirN = 1 := by
    simp [dot, exDirN, Fin.sum_univ_two]
  have hunit : vnorm exDirN = 1 := by
    unfold vnorm
    rw [hdotD, Real.sqrt_one]
  have hnz : reject_vector (exStoreNeu.model wordX) exDirN ≠ 0 := by
    intro hzero
    have h1 := congrFun hzero 1
    norm_num [reject_vector, project_vector, exStoreNeu, exDirN, dot,
      Fin.sum_univ_two] at h1
  exact ⟨⟨rfl, hunit, List.mem_singleton.2 rfl, hnz, rfl⟩,
    neutralize_projection_eq_zero exStoreNeu exDirN [wordX] wordX
      exStoreNeuAfter rfl hunit (List.mem_singleton.2 rfl) hnz rfl⟩

theorem cosine_similarity_neg_right (u v : Vec n) :
    cosine_similarity u (-v) = -cosine_similarity u v := by
  unfold cosine_similarity
  rw [dot_neg_right, vnorm_neg, neg_div]

/-- C3: whenever `_identify_direction` succeeds, with any of the three
methods and any input (the PCA collaborator abstracted as an oracle), the
stored direction has nonnegative cosine similarity with
`model[positive_end] − model[negative_end]`. -/
theorem identify_direction_sign (o : PCAOracle n) (e : BiasWordsEmbedding n)
    (pos neg : Word) (definitional : List (Word × Word)) (method : String)
    (eI : BiasWordsEmbedding n)
    (hok : _identify_direction o e pos neg definitional method = .ok eI) :
    ∃ d, eI.direction = some d ∧
      0 ≤ cosine_similarity (e.model pos - e.model neg) d := by
  unfold _identify_direction at hok
  split at hok
  · exact absurd hok (by simp)
  · split at hok
    · exact absurd hok (by simp)
    · cases hr : rawDirection o e definitional method with
      | error err => rw [hr] at hok; exact absurd hok (by simp)
      | ok dir0 =>
          rw [hr] at hok
          simp only [] at hok
          have heq : eI = { e with
              direction := some
                (if cosine_similarity (e.model pos - e.model neg) dir0 < 0
                 then -dir0 else dir0)
              positive_end := some pos
              negative_end := some neg } := by
            cases hok
            rfl
          subst heq
          by_cases hc :
              cosine_similarity (e.model pos - e.model neg) dir0 < 0
          · refine ⟨-dir0, ?_, ?_⟩
            · simp [hc]
            · rw [cosine_similarity_neg_right]
              linarith
          · refine ⟨dir0, ?_, ?_⟩
            · simp [hc]
            · exact not_lt.1 hc

theorem cosine_self_normalize_nonneg (v : Vec n) :
    0 ≤ cosine_similarity v (normalize v) := by
  unfold cosine_similarity normalize
  rw [dot_smul_right]
  apply div_nonneg
  · exact mul_nonneg (inv_nonneg.2 (vnorm_nonneg v)) (dot_self_nonneg v)
  · exact mul_nonneg (vnorm_nonneg _) (vnorm_nonneg _)

/-- Witness for C3: a concrete successful `single`-method identification. -/
theorem identify_direction_sign_witness :
    _identify_direction exOracle exStoreId wordA wordB [(wordA, wordB)]
        methodSingle = .ok exStoreIdAfter ∧
    (∃ d, exStoreIdAfter.direction = some d ∧
      0 ≤ cosine_similarity
        (exStoreId.model wordA - exStoreId.model wordB) d) := by
  have hma : exStoreId.model wordA = ![1] := by
    simp [exStoreId]
  have hmb : exStoreId.model wordB = ![-1] := by
    show (if wordB = wordA then ![1] else ![-1]) = ![-1]
    rw [if_neg (by decide)]
  have hmodels : exStoreId.model wordA - exStoreId.model wordB =
      normalize (exStoreId.model wordA)
        - normalize (exStoreId.model wordB) := by
    have n1 : normalize (![1] : Vec 1) = ![1] := by
      apply normalize_of_vnorm_one
      unfold vnorm
      rw [show dot (![1] : Vec 1) ![1] = 1 by
            simp [dot, Fin.sum_univ_one],
        Real.sqrt_one]
    have n2 : normalize (![-1] : Vec 1) = ![-1] := by
      apply normalize_of_vnorm_one
      unfold vnorm
      rw [show dot (![-1] : Vec 1) ![-1] = 1 by
            simp [dot, Fin.sum_univ_one],
        Real.sqrt_one]
    rw [hma, hmb, n1, n2]
  have hkey : 0 ≤ cosine_similarity
      (exStoreId.model wordA - exStoreId.model wordB) exDir0 := by
    rw [hmodels]
    exact cosine_self_normalize_nonneg _
  have hc : ¬(cosine_similarity
      (exStoreId.model wordA - exStoreId.model wordB) exDir0 < 0) :=
    not_lt.2 hkey
  have hraw : rawDirection exOracle exStoreId [(wordA, wordB)] methodSingle
      = .ok exDir0 := rfl
  have hok : _identify_direction exOracle exStoreId wordA wordB
      [(wordA, wordB)] methodSingle = .ok exStoreIdAfter := by
    unfold _identify_direction
    rw [if_neg (by decide), if_neg (by decide), hraw]
    simp only []
    rw [if_neg hc]
    rfl
  exact ⟨hok, identify_direction_sign exOracle exStoreId wordA wordB
    [(wordA, wordB)] methodSingle exStoreIdAfter hok⟩

/-- C6 counterexample: on an instance with an identified direction, `debias`
invoked without a neutral-words list does not fall back to the default
neutral-word set of `_extract_neutral_words`; it passes `None` through to
`_neutralize`, which raises a TypeError when iterating it. -/
theorem debias_default_neutral_words_fails :
    debias exStoreDirOne methodNeutralize none [] true =
      .error WEError.typeError := by
  have hne : _neutralize exStoreDirOne none = .error WEError.typeError := by
    unfold _neutralize _is_direction_identified
    rfl
  have hcnd : methodNeutralize = "hard" ∨ methodNeutralize = "neutralize" :=
    Or.inr rfl
  simp only [debias]
  rw [if_neg (by decide), if_pos hcnd, hne]
  rfl

theorem mem_extended_specific (lower upper title : Word → Word)
    (ws : List Word) (w : Word) :
    w ∈ ws.foldr
        (fun word acc => word :: lower word :: upper word :: title word :: acc)
        [] ↔
      ∃ s ∈ ws, w = s ∨ w = lower s ∨ w = upper s ∨ w = title s := by
  induction ws with
  | nil => simp
  | cons a tl ih =>
      rw [List.foldr_cons]
      simp [ih, or_assoc]

/-- C6 (amended): `_extract_neutral_words` computes exactly the vocabulary
words that are not a case variant (identity, lower, upper or title case) of
any specific word, but `debias` never invokes it: with no supplied
neutral-words list, the neutralize step receives `None` and fails with a
TypeError instead of using that default set. -/
theorem extract_neutral_words_complement (lower upper title : Word → Word)
    (e : BiasWordsEmbedding n) (specific_words : List Word) (w : Word)
    (d : Vec n) (es : List (List Word)) (ip : Bool) (method : String)
    (hd : e.direction = some d)
    (hm : method = "neutralize" ∨ method = "hard") :
    (w ∈ _extract_neutral_words lower upper title e specific_words ↔
      w ∈ e.vocab ∧ ∀ s ∈ specific_words,
        w ≠ s ∧ w ≠ lower s ∧ w ≠ upper s ∧ w ≠ title s) ∧
    debias e method none es ip = .error WEError.typeError := by
  have hne : _neutralize e none = .error WEError.typeError := by
    unfold _neutralize _is_direction_identified
    rw [hd]
    rfl
  constructor
  · unfold _extract_neutral_words
    simp only [List.mem_filter, decide_eq_true_eq, mem_extended_specific]
    push_neg
    tauto
  · rcases hm with h | h <;> subst h
    · simp only [debias]
      rw [if_pos (Or.inr trivial), hne]
      rfl
    · simp only [debias]
      rw [if_pos (Or.inl trivial), hne]
      rfl

/-- Witness for the amended C6 at a concrete identified store, the identity
as all three case functions and an empty specific-word list. -/
theorem extract_neutral_words_complement_witness :
    (exStoreDirOne.direction = some ![1] ∧
      (methodNeutralize = "neutralize" ∨ methodNeutralize = "hard")) ∧
    ((wordA ∈ _extract_neutral_words id id id exStoreDirOne [] ↔
        wordA ∈ exStoreDirOne.vocab ∧ ∀ s ∈ ([] : List Word),
          wordA ≠ s ∧ wordA ≠ id s ∧ wordA ≠ id s ∧ wordA ≠ id s) ∧
      debias exStoreDirOne methodNeutralize none [] true =
        .error WEError.typeError) :=
  ⟨⟨rfl, Or.inl rfl⟩,
    extract_neutral_words_complement id id id exStoreDirOne [] wordA ![1] []
      true methodNeutralize rfl (Or.inl rfl)⟩

theorem normalize_smul_of_unit {d : Vec n} (hunit : vnorm d = 1) (a : ℝ) :
    normalize (a • d) = (|a|⁻¹ * a) • d := by
  unfold normalize
  rw [vnorm_smul, hunit, mul_one, smul_smul]

theorem equalizedVector_eq {d : Vec n} (hunit : vnorm d = 1)
    (center v : Vec n) :
    equalizedVector d center v =
      reject_vector center d +
        (Real.sqrt (equalize_radicand (reject_vector center d)) *
          (|dot v d - dot center d|⁻¹ * (dot v d - dot center d))) • d := by
  unfold equalizedVector
  have hdiff : project_vector v d - project_vector center d =
      (dot v d - dot center d) • d := by
    unfold project_vector
    rw [sub_smul]
  rw [hdiff, normalize_smul_of_unit hunit, smul_smul]

theorem dot_add_smul_dir {d r : Vec n} (hdd : dot d d = 1)
    (hr : dot r d = 0) (a : ℝ) : dot (r + a • d) d = a := by
  rw [dot_add_left, dot_smul_left, hdd, hr]
  ring

theorem dot_add_smul_self {d r : Vec n} (hdd : dot d d = 1)
    (hr : dot r d = 0) (a : ℝ) :
    dot (r + a • d) (r + a • d) = dot r r + a ^ 2 := by
  rw [dot_add_left, dot_add_right, dot_add_right, dot_smul_right,
    dot_smul_left, dot_smul_left, dot_smul_right, dot_comm d r, hr, hdd]
  ring

theorem reject_add_smul {d r : Vec n} (hdd : dot d d = 1)
    (hr : dot r d = 0) (a : ℝ) : reject_vector (r + a • d) d = r := by
  unfold reject_vector project_vector
  rw [dot_add_left, dot_smul_left, hdd, hr]
  funext i
  show (r i + a * d i) - (0 + a * 1) * d i = r i
  ring

/-- Core geometry of `_equalize` on a two-member equality set: both
equalized vectors are unit vectors, their projections on the direction are
opposite, and their rejections both equal the rejected centroid. -/
theorem equalize_pair_core {d : Vec n} (hunit : vnorm d = 1)
    (c v1 v2 : Vec n) (hc : c = vmean [v1, v2])
    (hproj : dot v1 d ≠ dot v2 d)
    (hrej : vnorm (reject_vector c d) ≤ 1) :
    vnorm (equalizedVector d c v1) = 1 ∧
    vnorm (equalizedVector d c v2) = 1 ∧
    dot (equalizedVector d c v1) d = -(dot (equalizedVector d c v2) d) ∧
    reject_vector (equalizedVector d c v1) d = reject_vector c d ∧
    reject_vector (equalizedVector d c v2) d = reject_vector c d := by
  have hdd : dot d d = 1 := dot_eq_one_of_vnorm_one hunit
  have hrd : dot (reject_vector c d) d = 0 := dot_reject_left hdd c
  have htc : dot c d = 2⁻¹ * (dot v1 d + dot v2 d) := by
    have hsum : c = ((2 : ℝ))⁻¹ • (v1 + v2) := by
      rw [hc]
      unfold vmean vsum
      norm_num
    rw [hsum, dot_smul_left, dot_add_left]
  have hA1 : dot v1 d - dot c d = (dot v1 d - dot v2 d) / 2 := by
    rw [htc]
    ring
  have hA2 : dot v2 d - dot c d = -((dot v1 d - dot v2 d) / 2) := by
    rw [htc]
    ring
  have hAne : (dot v1 d - dot v2 d) / 2 ≠ 0 := by
    intro h0
    apply hproj
    have h1 : dot v1 d - dot v2 d = 0 := by linarith
    linarith
  have hrad : 0 ≤ equalize_radicand (reject_vector c d) := by
    unfold equalize_radicand
    nlinarith [vnorm_nonneg (reject_vector c d)]
  have hssq : Real.sqrt (equalize_radicand (reject_vector c d)) ^ 2 =
      1 - dot (reject_vector c d) (reject_vector c d) := by
    rw [Real.sq_sqrt hrad]
    unfold equalize_radicand
    rw [vnorm_sq]
  have hσ : (|(dot v1 d - dot v2 d) / 2|⁻¹ * ((dot v1 d - dot v2 d) / 2)) ^ 2
      = 1 := by
    rw [mul_pow, inv_pow, sq_abs]
    exact inv_mul_cancel₀ (pow_ne_zero 2 hAne)
  have ha2 : (Real.sqrt (equalize_radicand (reject_vector c d)) *
      (|(dot v1 d - dot v2 d) / 2|⁻¹ * ((dot v1 d - dot v2 d) / 2))) ^ 2 =
      1 - dot (reject_vector c d) (reject_vector c d) := by
    rw [mul_pow, hσ, mul_one, hssq]
  have habs : |-((dot v1 d - dot v2 d) / 2)|⁻¹ *
        -((dot v1 d - dot v2 d) / 2) =
      -(|(dot v1 d - dot v2 d) / 2|⁻¹ * ((dot v1 d - dot v2 d) / 2)) := by
    rw [abs_neg]
    ring
  rw [equalizedVector_eq hunit c v1, equalizedVector_eq hunit c v2,
    hA1, hA2, habs, mul_neg]
  refine ⟨?_, ?_, ?_, ?_, ?_⟩
  · unfold vnorm
    rw [dot_add_smul_self hdd hrd, ha2,
      show dot (reject_vector c d) (reject_vector c d) +
        (1 - dot (reject_vector c d) (reject_vector c d)) = 1 by ring,
      Real.sqrt_one]
  · unfold vnorm
    rw [dot_add_smul_self hdd hrd, neg_sq, ha2,
      show dot (reject_vector c d) (reject_vector c d) +
        (1 - dot (reject_vector c d) (reject_vector c d)) = 1 by ring,
      Real.sqrt_one]
  · rw [dot_add_smul_dir hdd hrd, dot_add_smul_dir hdd hrd, neg_neg]
  · exact reject_add_smul hdd hrd _
  · exact reject_add_smul hdd hrd _

/-- C1: equalizing a two-word equality set whose normalized stored vectors
have distinct projections on the identified unit direction, with rejected
centroid of norm at most one, stores two vectors whose projections on the
direction have equal magnitude and opposite sign and whose components
orthogonal to the direction both equal the centroid's orthogonal
component. -/
theorem equalize_two_words (e : BiasWordsEmbedding n) (d : Vec n)
    (w1 w2 : Word) (eE : BiasWordsEmbedding n)
    (hd : e.direction = some d) (hunit : vnorm d = 1)
    (hproj : dot (normalize (e.model w1)) d ≠ dot (normalize (e.model w2)) d)
    (hrej : vnorm (reject_vector
        (vmean [normalize (e.model w1), normalize (e.model w2)]) d) ≤ 1)
    (hok : _equalize e [[w1, w2]] = .ok eE) :
    dot (eE.model w1) d = -(dot (eE.model w2) d) ∧
    reject_vector (eE.model w1) d =
      reject_vector
        (vmean [normalize (e.model w1), normalize (e.model w2)]) d ∧
    reject_vector (eE.model w2) d =
      reject_vector
        (vmean [normalize (e.model w1), normalize (e.model w2)]) d := by
  have hw12 : w1 ≠ w2 := by
    intro h
    rw [h] at hproj
    exact hproj rfl
  unfold _equalize at hok
  rw [hd] at hok
  have hmodel : eE.model = init_sims (equalizeSet d e.model [w1, w2]) := by
    cases hok
    rfl
  have hupd : equalizeSet d e.model [w1, w2] =
      update_word_vector
        (update_word_vector e.model w1
          (equalizedVector d
            (vmean [normalize (e.model w1), normalize (e.model w2)])
            (normalize (e.model w1))))
        w2
        (equalizedVector d
          (vmean [normalize (e.model w1), normalize (e.model w2)])
          (normalize (e.model w2))) := rfl
  obtain ⟨hn1, hn2, hdot, hrj1, hrj2⟩ := equalize_pair_core hunit
    (vmean [normalize (e.model w1), normalize (e.model w2)])
    (normalize (e.model w1)) (normalize (e.model w2)) rfl hproj hrej
  have hm1 : eE.model w1 = equalizedVector d
      (vmean [normalize (e.model w1), normalize (e.model w2)])
      (normalize (e.model w1)) := by
    rw [hmodel]
    unfold init_sims
    rw [hupd]
    simp [update_word_vector, hw12]
    exact normalize_of_vnorm_one hn1
  have hm2 : eE.model w2 = equalizedVector d
      (vmean [normalize (e.model w1), normalize (e.model w2)])
      (normalize (e.model w2)) := by
    rw [hmodel]
    unfold init_sims
    rw [hupd]
    simp [update_word_vector]
    exact normalize_of_vnorm_one hn2
  rw [hm1, hm2]
  exact ⟨hdot, hrj1, hrj2⟩

/-- Witness for C1 at a concrete two-dimensional store holding two
orthogonal unit vectors. -/
theorem equalize_two_words_witness :
    (exStoreEq.direction = some exDirN ∧ vnorm exDirN = 1 ∧
      dot (normalize (exStoreEq.model wordU)) exDirN ≠
        dot (normalize (exStoreEq.model wordV)) exDirN ∧
      vnorm (reject_vector (vmean [normalize (exStoreEq.model wordU),
        normalize (exStoreEq.model wordV)]) exDirN) ≤ 1 ∧
      _equalize exStoreEq [[wordU, wordV]] = .ok exStoreEqAfter) ∧
    (dot (exStoreEqAfter.model wordU) exDirN =
        -(dot (exStoreEqAfter.model wordV) exDirN) ∧
      reject_vector (exStoreEqAfter.model wordU) exDirN =
        reject_vector (vmean [normalize (exStoreEq.model wordU),
          normalize (exStoreEq.model wordV)]) exDirN ∧
      reject_vector (exStoreEqAfter.model wordV) exDirN =
        reject_vector (vmean [normalize (exStoreEq.model wordU),
          normalize (exStoreEq.model wordV)]) exDirN) := by
  have hmu : exStoreEq.model wordU = ![1, 0] := by
    simp [exStoreEq]
  have hmv : exStoreEq.model wordV = ![0, 1] := by
    show (if wordV = wordU then ![1, 0] else ![0, 1]) = ![0, 1]
    rw [if_neg (by decide)]
  have hdotd : dot exDirN exDirN = 1 := by
    simp [dot, exDirN, Fin.sum_univ_two]
  have hunit : vnorm exDirN = 1 := by
    unfold vnorm
    rw [hdotd, Real.sqrt_one]
  have hnu : normalize (![1, 0] : Vec 2) = ![1, 0] := by
    apply normalize_of_vnorm_one
    unfold vnorm
    rw [show dot (![1, 0] : Vec 2) ![1, 0] = 1 by
          simp [dot, Fin.sum_univ_two],
      Real.sqrt_one]
  have hnv : normalize (![0, 1] : Vec 2) = ![0, 1] := by
    apply normalize_of_vnorm_one
    unfold vnorm
    rw [show dot (![0, 1] : Vec 2) ![0, 1] = 1 by
          simp [dot, Fin.sum_univ_two],
      Real.sqrt_one]
  have hproj : dot (normalize (exStoreEq.model wordU)) exDirN ≠
      dot (normalize (exStoreEq.model wordV)) exDirN := by
    rw [hmu, hmv, hnu, hnv]
    rw [show dot (![1, 0] : Vec 2) exDirN = 1 by
          simp [dot, exDirN, Fin.sum_univ_two],
      show dot (![0, 1] : Vec 2) exDirN = 0 by
          simp [dot, exDirN, Fin.sum_univ_two]]
    norm_num
  have hvm : vmean [normalize (exStoreEq.model wordU),
      normalize (exStoreEq.model wordV)] = ![2⁻¹, 2⁻¹] := by
    rw [hmu, hmv, hnu, hnv]
    funext i
    fin_cases i <;>
      simp [vmean, vsum, List.sum_cons, List.sum_nil]
  have hrejc : reject_vector (vmean [normalize (exStoreEq.model wordU),
      normalize (exStoreEq.model wordV)]) exDirN = ![0, 2⁻¹] := by
    rw [hvm]
    unfold reject_vector project_vector
    rw [show dot (![2⁻¹, 2⁻¹] : Vec 2) exDirN = 2⁻¹ by
          simp [dot, exDirN, Fin.sum_univ_two]]
    funext i
    fin_cases i <;> simp [exDirN]
  have hrej : vnorm (reject_vector (vmean [normalize (exStoreEq.model wordU),
      normalize (exStoreEq.model wordV)]) exDirN) ≤ 1 := by
    rw [hrejc]
    unfold vnorm
    rw [show dot (![0, 2⁻¹] : Vec 2) ![0, 2⁻¹] = 4⁻¹ by
          rw [show ((4 : ℝ))⁻¹ = 2⁻¹ * 2⁻¹ by norm_num]
          simp [dot, Fin.sum_univ_two]]
    exact Real.sqrt_le_one.mpr (by norm_num)
  exact ⟨⟨rfl, hunit, hproj, hrej, rfl⟩,
    equalize_two_words exStoreEq exDirN wordU wordV exStoreEqAfter rfl hunit
      hproj hrej rfl⟩

end Claims

end Ethically
